import Mathlib

/-!
Shallow embedding of the go-dotenv library (profclems/go-dotenv).

Strings are modelled as `List Char`; Go's `map[string]any` scratch map used by
the decoder is modelled as an association list with in-place-update semantics
(`mapUpsert`), and the registry cache `map[string]any` as an association list
of `GoAny` values.  The decoder (`src/parser.go`) is translated function by
function; the registry (`src/dotenv.go`) likewise.  Go's `strings.TrimSpace`,
`strings.Split`, `strings.Cut`, `strings.Index`, `strings.HasPrefix` and the
two regular-expression rewrites of `parseValue` are given direct executable
models.
-/

namespace GoDotenv

/-- isSpaceCh models Go `unicode.IsSpace` on the characters that can actually
occur here (Latin-1 range): space, tab, newline, vertical tab, form feed,
carriage return, NEL and NBSP. -/
def isSpaceCh (c : Char) : Bool :=
  c = ' ' || c = '\t' || c = '\n' || c = '\x0b' || c = '\x0c' || c = '\x0d' ||
  c = '\x85' || c = '\xa0'

/-- trimLeft drops the maximal run of leading whitespace (half of Go
`strings.TrimSpace`). -/
def trimLeft (l : List Char) : List Char := l.dropWhile isSpaceCh

/-- trimRight drops the maximal run of trailing whitespace (the other half of
Go `strings.TrimSpace`). -/
def trimRight : List Char → List Char
  | [] => []
  | c :: r =>
    match trimRight r with
    | [] => if isSpaceCh c then [] else [c]
    | r' => c :: r'

/-- trimSpace models Go `strings.TrimSpace`: whitespace removed from both
ends. -/
def trimSpace (l : List Char) : List Char := trimLeft (trimRight l)

/-- goUpper models Go `strings.ToUpper` (per-character uppercasing; the
library's keys are ASCII). -/
def goUpper (l : List Char) : List Char := l.map Char.toUpper

/-- splitCh models Go `strings.Split(data, sep)` for a one-character
separator: `splitCh sep [] = [[]]`, and separators delimit (possibly empty)
fields. -/
def splitCh (sep : Char) : List Char → List (List Char)
  | [] => [[]]
  | c :: rest =>
    if c = sep then [] :: splitCh sep rest
    else
      match splitCh sep rest with
      | [] => [[c]]
      | h :: t => (c :: h) :: t

/-- cutCh models Go `strings.Cut(s, sep)` for a one-character separator:
returns (before, after, found); when the separator is absent it returns
(s, "", false). -/
def cutCh (sep : Char) : List Char → List Char × List Char × Bool
  | [] => ([], [], false)
  | c :: rest =>
    if c = sep then ([], rest, true)
    else
      let r := cutCh sep rest
      (c :: r.1, r.2.1, r.2.2)

/-- truncAtHash models `value = value[:strings.Index(value, "#")]` guarded by
`Index >= 0`: the value up to (excluding) the first '#', the whole value if
none. -/
def truncAtHash (l : List Char) : List Char := l.takeWhile (fun c => c ≠ '#')

/-- exportPre is the literal `"export "` prefix tested by the decoder. -/
def exportPre : List Char := ['e', 'x', 'p', 'o', 'r', 't', ' ']

/-- isPrefixQuoted models `isPrefixQuoted` of src/parser.go: the opening
quote character of the value, if its first character is `'` or `"`. -/
def isPrefixQuoted : List Char → Option Char
  | [] => none
  | c :: _ => if c = '"' ∨ c = '\'' then some c else none

/-- isQuoted models `isQuoted` of src/parser.go: length at least 2, first
character equals last character, and that character is a quote. -/
def isQuoted (s : List Char) : Bool :=
  if s.length < 2 then false
  else (s.head? == s.getLast?) && (s.head? == some '"' || s.head? == some '\'')

/-- findTermAux is the scanning loop of `findTerminator`: position of the
first occurrence of the quote character not preceded by an (unescaped)
backslash. -/
def findTermAux : List Char → Char → Bool → Nat → Option Nat
  | [], _, _, _ => none
  | c :: rest, q, esc, i =>
    if c = q ∧ ¬esc then some i
    else if ¬esc ∧ c = '\\' then findTermAux rest q true (i + 1)
    else findTermAux rest q false (i + 1)

/-- findTerminator models `findTerminator` of src/parser.go (`none` stands
for Go's `-1`). -/
def findTerminator (str : List Char) (quote : Char) : Option Nat :=
  findTermAux str quote false 0

/-- replaceEscapes models `escapeRegex.ReplaceAllStringFunc` with pattern
`\\.`: each backslash-plus-character pair (the character may not be a
newline, which `.` does not match) is rewritten, `\n` to a newline, `\r` to a
carriage return, anything else kept verbatim. -/
def replaceEscapes : List Char → List Char
  | [] => []
  | c :: rest =>
    if c = '\\' then
      match rest with
      | [] => ['\\']
      | c2 :: rest2 =>
        if c2 = '\n' then '\\' :: replaceEscapes (c2 :: rest2)
        else (if c2 = 'n' then ['\n'] else if c2 = 'r' then ['\r'] else ['\\', c2])
          ++ replaceEscapes rest2
    else c :: replaceEscapes rest

/-- unescapeChars models `unescapeCharsRegex.ReplaceAllString` with pattern
`\\([^$])` and replacement `$1`: a backslash followed by any character other
than `$` is replaced by that character. -/
def unescapeChars : List Char → List Char
  | [] => []
  | c :: rest =>
    if c = '\\' then
      match rest with
      | [] => ['\\']
      | c2 :: rest2 =>
        if c2 = '$' then '\\' :: unescapeChars (c2 :: rest2)
        else c2 :: unescapeChars rest2
    else c :: unescapeChars rest

/-- valueTail is the tail of `parseValue` of src/parser.go after the
comment-truncation statement: trim again; strip a surrounding quote pair
when the value is longer than one character and starts with a quote; apply
the two regex rewrites for double-quoted values. -/
def valueTail (value1 : List Char) : List Char :=
  let value := trimSpace value1
  if value.length > 1 then
    match isPrefixQuoted value with
    | some quote =>
      let value := (value.drop 1).dropLast
      if quote = '"' then unescapeChars (replaceEscapes value) else value
    | none => value
  else value

/-- parseValue models `parseValue` of src/parser.go: trim; return empty for
empty; comment-truncate unless `isQuoted`; then the remaining statements
(`valueTail`). -/
def parseValue (value0 : List Char) : List Char :=
  let value := trimSpace value0
  if value = [] then []
  else valueTail (if ¬ isQuoted value then truncAtHash value else value)

/-- Cfg is the decoder's output mapping `v map[string]any` (its values are
always strings), as an association list with Go-map update semantics. -/
abbrev Cfg := List (List Char × List Char)

/-- mapGet models a Go map read: the value stored under the key, if any. -/
def mapGet (k : List Char) : List (List Char × α) → Option α
  | [] => none
  | p :: rest => if p.1 = k then some p.2 else mapGet k rest

/-- mapUpsert models a Go map assignment `m[k] = v`: replace in place when
the key exists, append otherwise. -/
def mapUpsert (k : List Char) (v : α) : List (List Char × α) → List (List Char × α)
  | [] => [(k, v)]
  | p :: rest => if p.1 = k then (k, v) :: rest else p :: mapUpsert k v rest

/-- addEnvD models `addEnv` of src/parser.go: an `export `-prefixed key is
routed to `os.Setenv` (recorded in the second component), any other key is
upper-cased and upserted into the mapping. -/
def addEnvD (key value : List Char) (cfg : Cfg) (exps : Cfg) : Cfg × Cfg :=
  if exportPre.isPrefixOf key then (cfg, exps ++ [(key.drop 7, value)])
  else (mapUpsert (goUpper key) value cfg, exps)

/-- ErrKind distinguishes the decoder's two fatal errors. -/
inductive ErrKind where
  | keySpaces
  | unterminated
deriving DecidableEq, Repr

/-- DecErr is a decoder error: the `line %d` number printed by
`fmt.Errorf` together with which message followed it. -/
structure DecErr where
  line : Nat
  kind : ErrKind
deriving DecidableEq, Repr

/-- DecResult bundles what a `Decode` call produces: the error (if any), the
mapping, the `os.Setenv` side effects in order, and the decoder's `line`
field after the call (it is a struct field of `DefaultDecoder` and persists
across calls). -/
structure DecResult where
  err : Option DecErr
  cfg : Cfg
  exps : Cfg
  line : Nat
deriving DecidableEq, Repr

/-- decodeLoop is the `for _, line := range lines` loop of `Decode`
(src/parser.go) together with the final unterminated-quote check, carrying
the mutable locals `d.line`, `curKey`, `curVal`, `curQuote` (`none` models
the zero byte) and the output map. -/
def decodeLoop (d : Nat) (lines : List (List Char)) (curKey curVal : List Char)
    (curQuote : Option Char) (cfg : Cfg) (exps : Cfg) : DecResult :=
  match lines with
  | [] =>
    match curQuote with
    | some _ => ⟨some ⟨d, ErrKind.unterminated⟩, cfg, exps, d⟩
    | none => ⟨none, cfg, exps, d⟩
  | line :: rest =>
    let d := d + 1
    match curQuote with
    | none =>
      let line := trimSpace line
      if line = [] ∨ line.head? = some '#' then
        decodeLoop d rest curKey curVal none cfg exps
      else
        let c1 := cutCh '=' line
        let kv := if c1.2.2 then (c1.1, c1.2.1) else
          (let c2 := cutCh ':' line; (c2.1, c2.2.1))
        let key := trimSpace kv.1
        if ¬ exportPre.isPrefixOf key ∧ key.contains ' ' then
          ⟨some ⟨d, ErrKind.keySpaces⟩, cfg, exps, d⟩
        else
          let val := trimSpace kv.2
          match isPrefixQuoted val with
          | some quote =>
            if findTerminator (val.drop 1) quote = none then
              decodeLoop d rest key val (some quote) cfg exps
            else
              let pr := addEnvD key (parseValue val) cfg exps
              decodeLoop d rest curKey curVal none pr.1 pr.2
          | none =>
            let pr := addEnvD key (parseValue val) cfg exps
            decodeLoop d rest curKey curVal none pr.1 pr.2
      | some q =>
        let curVal := curVal ++ '\n' :: line
        if findTerminator line q = none then
          decodeLoop d rest curKey curVal (some q) cfg exps
        else
          let pr := addEnvD curKey (parseValue curVal) cfg exps
          decodeLoop d rest [] [] none pr.1 pr.2

/-- decodeFrom models `(*DefaultDecoder).Decode(b, v)` started with the
decoder's `line` field at `d0` and the caller's map at `cfg0`: split on
newlines and run the loop with empty pending state. -/
def decodeFrom (d0 : Nat) (data : List Char) (cfg0 : Cfg) : DecResult :=
  decodeLoop d0 (splitCh '\n' data) [] [] none cfg0 []

/-- GoAny models the `any` values held by the registry cache: a string, the
nil interface, or some other opaque payload set through `Set`. -/
inductive GoAny where
  | str : List Char → GoAny
  | vnil : GoAny
  | other : Nat → GoAny
deriving DecidableEq, Repr

/-- goToString models `cast.ToString` on the values that occur: a string is
itself, nil renders empty, an opaque numeric payload renders in decimal. -/
def goToString : GoAny → List Char
  | GoAny.str s => s
  | GoAny.vnil => []
  | GoAny.other n => (Nat.repr n).toList

/-- Env models the process environment consulted by `os.LookupEnv`. -/
abbrev Env := List Char → Option (List Char)

/-- DotEnvReg is the `DotEnv` struct of src/dotenv.go restricted to the
fields the specified operations read or write: the key prefix `pfx`
(field `prefix`), the `allowEmptyEnvVars` flag, the cache (`none` models the
nil map a fresh registry has), and the `line` field of its `DefaultDecoder`
(which persists across `Decode` calls). -/
structure DotEnvReg where
  pfx : List Char
  allowEmptyEnvVars : Bool
  cachedConfig : Option (List (List Char × GoAny))
  decLine : Nat
deriving Repr

/-- newDotEnv models `New()`: no prefix, flag false (Go zero value), nil
cache, fresh decoder. -/
def newDotEnv : DotEnvReg := ⟨[], false, none, 0⟩

/-- setPfx models `(*DotEnv).SetPrefix`: the stored prefix is the
upper-cased argument with `_` appended. -/
def setPfx (p : List Char) (e : DotEnvReg) : DotEnvReg :=
  { e with pfx := goUpper p ++ ['_'] }

/-- addPfx models `(*DotEnv).addPrefix`, argument order of the
`strings.HasPrefix(e.prefix, key)` test included: the prefix is prepended
unless the stored prefix starts with the key. -/
def addPfx (e : DotEnvReg) (key : List Char) : List Char :=
  if e.pfx ≠ [] then
    if ¬ key.isPrefixOf e.pfx then e.pfx ++ key else key
  else key

/-- cacheGet models reading `e.cachedConfig[key]`: a read of the nil map
yields not-found. -/
def cacheGet (e : DotEnvReg) (key : List Char) : Option GoAny :=
  match e.cachedConfig with
  | none => none
  | some m => mapGet key m

/-- lookUp models `(*DotEnv).LookUp` against the environment `env`: empty
keys are rejected; the effective key is `goUpper (addPfx e key)`; an
environment hit is returned only when it is non-empty and the
`allowEmptyEnvVars` flag is false (this is the condition written in the
source); otherwise the cache is consulted. -/
def lookUp (env : Env) (e : DotEnvReg) (key : List Char) : Option GoAny :=
  if key ≠ [] then
    let key := goUpper (addPfx e key)
    match env key with
    | some val =>
      if val ≠ [] ∧ ¬ e.allowEmptyEnvVars then some (GoAny.str val)
      else cacheGet e key
    | none => cacheGet e key
  else none

/-- getReg models `(*DotEnv).Get`: the value half of `LookUp`, Go's nil when
not found. -/
def getReg (env : Env) (e : DotEnvReg) (key : List Char) : GoAny :=
  (lookUp env e key).getD GoAny.vnil

/-- isSetReg models `(*DotEnv).IsSet`: the boolean half of `LookUp`. -/
def isSetReg (env : Env) (e : DotEnvReg) (key : List Char) : Bool :=
  (lookUp env e key).isSome

/-- setReg models `(*DotEnv).Set`: prefix, upper-case, then assign into the
cache map.  On a fresh registry the cache is the nil map and the Go
assignment `e.cachedConfig[key] = value` panics ("assignment to entry in nil
map"); the panic is modelled as `none`. -/
def setReg (e : DotEnvReg) (key : List Char) (value : GoAny) : Option DotEnvReg :=
  let key := goUpper (addPfx e key)
  match e.cachedConfig with
  | none => none
  | some m => some { e with cachedConfig := some (mapUpsert key value m) }

/-- utf8BOM is the byte-order mark stripped by `Load`. -/
def utf8BOM : List Char := [Char.ofNat 0xFEFF]

/-- bytesTrimPre models `bytes.TrimPrefix`. -/
def bytesTrimPre (pre l : List Char) : List Char :=
  if pre.isPrefixOf l then l.drop pre.length else l

/-- LoadErr distinguishes the two failure sources of `Load`: the
`os.ReadFile` error and the decoder's error. -/
inductive LoadErr where
  | readErr
  | decodeErr : DecErr → LoadErr
deriving DecidableEq, Repr

/-- cfgToCache injects the decoder's string-valued map into the cache's
`any`-valued map. -/
def cfgToCache (c : Cfg) : List (List Char × GoAny) :=
  c.map (fun p => (p.1, GoAny.str p.2))

/-- loadReg models `(*DotEnv).Load` with the file contents supplied as
`fileData` (`none` models an `os.ReadFile` error): strip the BOM, decode
into a fresh map with the registry's decoder (whose `line` field advances
even on failure), and only on success replace `cachedConfig` wholesale with
the decoded map. -/
def loadReg (fileData : Option (List Char)) (e : DotEnvReg) :
    Option LoadErr × DotEnvReg :=
  match fileData with
  | none => (some LoadErr.readErr, e)
  | some data =>
    let r := decodeFrom e.decLine (bytesTrimPre utf8BOM data) []
    match r.err with
    | some er => (some (LoadErr.decodeErr er), { e with decLine := r.line })
    | none =>
      (none, { e with decLine := r.line, cachedConfig := some (cfgToCache r.cfg) })

/-- saveCache models the serialization loop of `(*DotEnv).Save`: one
`KEY=value` line, newline-terminated, per cache entry, values rendered with
`cast.ToString`. -/
def saveCache (m : List (List Char × GoAny)) : List Char :=
  (m.map (fun p => p.1 ++ '=' :: (goToString p.2 ++ ['\n']))).flatten

/-- entryPlain collects the conditions under which a `KEY=value` line
written by Save decodes back to exactly the same entry: the key is
uppercase, trimmed on both sides, and free of spaces, '=', newlines and a
leading '#'; the value is trimmed on both sides, free of '#' and newlines,
and does not start with a quote character. -/
def entryPlain (p : List Char × List Char) : Prop :=
  goUpper p.1 = p.1 ∧ trimLeft p.1 = p.1 ∧ trimRight p.1 = p.1 ∧
  (' ' ∉ p.1) ∧ ('=' ∉ p.1) ∧ ('\n' ∉ p.1) ∧ p.1.head? ≠ some '#' ∧
  trimLeft p.2 = p.2 ∧ trimRight p.2 = p.2 ∧
  ('#' ∉ p.2) ∧ ('\n' ∉ p.2) ∧ isPrefixQuoted p.2 = none

instance (p : List Char × List Char) : Decidable (entryPlain p) := by
  unfold entryPlain
  infer_instance

/-! Helper lemmas about the string primitives. -/

/-- trimLeft_cons_nonspace: a non-whitespace head survives trimLeft. -/
theorem trimLeft_cons_nonspace (c : Char) (r : List Char)
    (h : isSpaceCh c = false) : trimLeft (c :: r) = c :: r := by
  simp [trimLeft, List.dropWhile_cons, h]

/-- trimRight_cons_nonspace: trimRight commutes with consing a
non-whitespace character. -/
theorem trimRight_cons_nonspace (c : Char) (r : List Char)
    (h : isSpaceCh c = false) : trimRight (c :: r) = c :: trimRight r := by
  cases hr : trimRight r with
  | nil => simp [trimRight, hr, h]
  | cons a t => simp [trimRight, hr]

/-- length_trimRight_le: trimRight never lengthens a list. -/
theorem length_trimRight_le (l : List Char) :
    (trimRight l).length ≤ l.length := by
  induction l with
  | nil => simp [trimRight]
  | cons c r ih =>
    cases hr : trimRight r with
    | nil =>
      simp only [trimRight, hr]
      split <;> simp
    | cons a t =>
      rw [hr] at ih
      simp only [trimRight, hr, List.length_cons]
      simpa using ih

/-- trimRight_cons_of_ne_nil: when the tail keeps something after trimRight,
the head is kept too. -/
theorem trimRight_cons_of_ne_nil (c : Char) (r : List Char)
    (h : trimRight r ≠ []) : trimRight (c :: r) = c :: trimRight r := by
  cases hr : trimRight r with
  | nil => exact absurd hr h
  | cons a t => simp only [trimRight, hr]

/-- trimLeft_append: trimLeft of an append, by cases on whether the first
part is all whitespace. -/
theorem trimLeft_append (x y : List Char) :
    trimLeft (x ++ y)
      = if trimLeft x = [] then trimLeft y else trimLeft x ++ y := by
  induction x with
  | nil => simp [trimLeft]
  | cons c x' ih =>
    cases hc : isSpaceCh c with
    | true =>
      simp only [List.cons_append, trimLeft, List.dropWhile_cons, hc] at *
      exact ih
    | false =>
      simp [trimLeft, List.dropWhile_cons, hc]

/-- trimRight_append: trimRight of an append, by cases on whether the second
part is all whitespace. -/
theorem trimRight_append (x y : List Char) :
    trimRight (x ++ y)
      = if trimRight y = [] then trimRight x else x ++ trimRight y := by
  induction x with
  | nil =>
    cases h : trimRight y <;> simp [h, trimRight]
  | cons c x' ih =>
    by_cases hy : trimRight y = []
    · rw [if_pos hy] at ih
      rw [if_pos hy]
      simp only [List.cons_append, trimRight, List.append_eq, ih]
    · rw [if_neg hy] at ih
      rw [if_neg hy]
      have hne : x' ++ trimRight y ≠ [] := by
        intro hx
        rcases List.append_eq_nil.mp hx with ⟨-, h2⟩
        exact hy h2
      rw [List.cons_append, trimRight_cons_of_ne_nil c _ (ih ▸ hne), ih,
        List.cons_append]

/-- trimLeft_idem: trimLeft is idempotent. -/
theorem trimLeft_idem (l : List Char) : trimLeft (trimLeft l) = trimLeft l := by
  induction l with
  | nil => rfl
  | cons c r ih =>
    cases hc : isSpaceCh c with
    | true => simpa [trimLeft, List.dropWhile_cons, hc] using ih
    | false => simp [trimLeft, List.dropWhile_cons, hc]

/-- trimRight_idem: trimRight is idempotent. -/
theorem trimRight_idem (l : List Char) :
    trimRight (trimRight l) = trimRight l := by
  induction l with
  | nil => rfl
  | cons c r ih =>
    cases hr : trimRight r with
    | nil =>
      simp only [trimRight, hr]
      cases hc : isSpaceCh c with
      | true => simp [trimRight]
      | false => simp [trimRight, hc]
    | cons a t =>
      rw [hr] at ih
      have h1 : trimRight (c :: r) = c :: (a :: t) :=
        hr ▸ trimRight_cons_of_ne_nil c r (by simp [hr])
      rw [h1, trimRight_cons_of_ne_nil c (a :: t) (by simp [ih]), ih]

/-- trim_comm: trimLeft and trimRight commute. -/
theorem trim_comm (l : List Char) :
    trimLeft (trimRight l) = trimRight (trimLeft l) := by
  induction l with
  | nil => rfl
  | cons c r ih =>
    cases hc : isSpaceCh c with
    | true =>
      have hR : trimLeft (c :: r) = trimLeft r := by
        simp [trimLeft, List.dropWhile_cons, hc]
      cases hr : trimRight r with
      | nil =>
        rw [hr] at ih
        simp only [trimRight, hr, hc, if_pos rfl, hR]
        simpa [trimLeft] using ih
      | cons a t =>
        rw [hr] at ih
        simp only [trimRight, hr, hR]
        simpa [trimLeft, List.dropWhile_cons, hc] using ih
    | false =>
      have h1 : trimRight (c :: r) = c :: trimRight r :=
        trimRight_cons_nonspace c r hc
      have h2 : trimLeft (c :: r) = c :: r := trimLeft_cons_nonspace c r hc
      rw [h1, h2, trimLeft_cons_nonspace c _ hc, trimRight_cons_nonspace c r hc]

/-- head_trimLeft_nonspace: the head of a trimLeft result is never
whitespace. -/
theorem head_trimLeft_nonspace (l : List Char) (c : Char) (t : List Char)
    (h : trimLeft l = c :: t) : isSpaceCh c = false := by
  induction l with
  | nil => simp [trimLeft] at h
  | cons d r ih =>
    cases hd : isSpaceCh d with
    | true =>
      rw [show trimLeft (d :: r) = trimLeft r by
        simp [trimLeft, List.dropWhile_cons, hd]] at h
      exact ih h
    | false =>
      rw [trimLeft_cons_nonspace d r hd] at h
      cases h
      exact hd

/-- trimRight_sublist: trimRight yields a sublist. -/
theorem trimRight_sublist (l : List Char) : (trimRight l).Sublist l := by
  induction l with
  | nil => simp [trimRight]
  | cons c r ih =>
    cases hr : trimRight r with
    | nil =>
      simp only [trimRight, hr]
      split
      · exact List.nil_sublist _
      · exact List.cons_sublist_cons.mpr (List.nil_sublist r)
    | cons a t =>
      rw [hr] at ih
      simp only [trimRight, hr]
      exact List.cons_sublist_cons.mpr ih

/-- mem_trimLeft: membership in a trimLeft result implies membership in the
original. -/
theorem mem_trimLeft (x : Char) (l : List Char) (h : x ∈ trimLeft l) :
    x ∈ l := (List.dropWhile_sublist isSpaceCh).mem h

/-- mem_trimRight: membership in a trimRight result implies membership in
the original. -/
theorem mem_trimRight (x : Char) (l : List Char) (h : x ∈ trimRight l) :
    x ∈ l := (trimRight_sublist l).mem h

/-- truncAtHash_eq_self: a hash-free value is not truncated. -/
theorem truncAtHash_eq_self (l : List Char) (h : '#' ∉ l) :
    truncAtHash l = l := by
  induction l with
  | nil => rfl
  | cons c r ih =>
    have hc : c ≠ '#' := fun e => h (e ▸ List.mem_cons_self c r)
    simp only [truncAtHash, List.takeWhile_cons] at *
    simp only [decide_eq_true_eq] at *
    rw [if_pos hc]
    exact congrArg (c :: ·) (ih (fun hm => h (List.mem_cons_of_mem c hm)))

/-- truncAtHash_append: truncation stops exactly at the first hash. -/
theorem truncAtHash_append (a b : List Char) (h : '#' ∉ a) :
    truncAtHash (a ++ '#' :: b) = a := by
  induction a with
  | nil => simp [truncAtHash, List.takeWhile_cons]
  | cons c a' ih =>
    have hc : c ≠ '#' := fun e => h (e ▸ List.mem_cons_self c a')
    simp only [List.cons_append, truncAtHash, List.takeWhile_cons,
      decide_eq_true_eq] at *
    rw [if_pos hc]
    exact congrArg (c :: ·) (ih (fun hm => h (List.mem_cons_of_mem c hm)))

/-- findTermAux_none: a string not containing the quote character has no
terminator. -/
theorem findTermAux_none (s : List Char) (q : Char) (h : q ∉ s) :
    ∀ esc i, findTermAux s q esc i = none := by
  induction s with
  | nil => intro esc i; rfl
  | cons c r ih =>
    intro esc i
    have hc : c ≠ q := fun e => h (e ▸ List.mem_cons_self c r)
    have hr : q ∉ r := fun hm => h (List.mem_cons_of_mem c hm)
    simp only [findTermAux]
    rw [if_neg (fun hand => hc hand.1)]
    split
    · exact ih hr true (i + 1)
    · exact ih hr false (i + 1)

/-- findTermAux_concat: a quote appended to a quote-free, backslash-free
string is found, at the string's length. -/
theorem findTermAux_concat (z : List Char) (q : Char) (hq : q ∉ z)
    (hb : '\\' ∉ z) : ∀ i, findTermAux (z ++ [q]) q false i
      = some (i + z.length) := by
  induction z with
  | nil => intro i; simp [findTermAux]
  | cons c r ih =>
    intro i
    have hc : c ≠ q := fun e => hq (e ▸ List.mem_cons_self c r)
    have hcb : c ≠ '\\' := fun e => hb (e ▸ List.mem_cons_self c r)
    have h1 : q ∉ r := fun hm => hq (List.mem_cons_of_mem c hm)
    have h2 : '\\' ∉ r := fun hm => hb (List.mem_cons_of_mem c hm)
    simp only [List.cons_append, findTermAux, List.append_eq]
    rw [if_neg (fun hand => hc hand.1), if_neg (fun hand => hcb hand.2)]
    rw [ih h1 h2 (i + 1)]
    congr 1
    simp only [List.length_cons]
    omega

/-- replaceEscapes_id: with no backslash present, the first regex pass is
the identity. -/
theorem replaceEscapes_id (s : List Char) (h : '\\' ∉ s) :
    replaceEscapes s = s := by
  induction s with
  | nil => rfl
  | cons c r ih =>
    have hc : c ≠ '\\' := fun e => h (e ▸ List.mem_cons_self c r)
    rw [replaceEscapes.eq_def]
    simp only [if_neg hc]
    exact congrArg (c :: ·) (ih (fun hm => h (List.mem_cons_of_mem c hm)))

/-- unescapeChars_id: with no backslash present, the second regex pass is
the identity. -/
theorem unescapeChars_id (s : List Char) (h : '\\' ∉ s) :
    unescapeChars s = s := by
  induction s with
  | nil => rfl
  | cons c r ih =>
    have hc : c ≠ '\\' := fun e => h (e ▸ List.mem_cons_self c r)
    rw [unescapeChars.eq_def]
    simp only [if_neg hc]
    exact congrArg (c :: ·) (ih (fun hm => h (List.mem_cons_of_mem c hm)))

/-- splitCh_not_mem: splitting a separator-free list yields that list
alone. -/
theorem splitCh_not_mem (sep : Char) (a : List Char) (h : sep ∉ a) :
    splitCh sep a = [a] := by
  induction a with
  | nil => rfl
  | cons c r ih =>
    have hc : c ≠ sep := fun e => h (e ▸ List.mem_cons_self c r)
    rw [show splitCh sep (c :: r) = (c :: (splitCh sep r).headI)
        :: (splitCh sep r).tail from ?_]
    · rw [ih (fun hm => h (List.mem_cons_of_mem c hm))]
      rfl
    · simp only [splitCh, if_neg hc]
      cases hs : splitCh sep r with
      | nil => simp [ih (fun hm => h (List.mem_cons_of_mem c hm))] at hs
      | cons u v => rfl

/-- splitCh_append: a separator-free prefix followed by the separator splits
off as the first field. -/
theorem splitCh_append (sep : Char) (a r : List Char) (h : sep ∉ a) :
    splitCh sep (a ++ sep :: r) = a :: splitCh sep r := by
  induction a with
  | nil => simp [splitCh]
  | cons c a' ih =>
    have hc : c ≠ sep := fun e => h (e ▸ List.mem_cons_self c a')
    have ih2 := ih (fun hm => h (List.mem_cons_of_mem c hm))
    simp only [List.cons_append, splitCh, if_neg hc, List.append_eq, ih2]

/-- cutCh_append: cutting at the first separator occurrence returns the
separator-free part before it and everything after. -/
theorem cutCh_append (sep : Char) (a r : List Char) (h : sep ∉ a) :
    cutCh sep (a ++ sep :: r) = (a, r, true) := by
  induction a with
  | nil => simp [cutCh]
  | cons c a' ih =>
    have hc : c ≠ sep := fun e => h (e ▸ List.mem_cons_self c a')
    have ih2 := ih (fun hm => h (List.mem_cons_of_mem c hm))
    simp only [List.cons_append, cutCh, if_neg hc, List.append_eq, ih2]

/-- isQuoted_false_of_not_quote_head: a value that does not start with a
quote character is not `isQuoted`. -/
theorem isQuoted_false_of_not_quote_head (v : List Char)
    (h : isPrefixQuoted v = none) : isQuoted v = false := by
  cases v with
  | nil => rfl
  | cons c t =>
    simp only [isPrefixQuoted] at h
    by_cases hq : c = '"' ∨ c = '\''
    · simp [hq] at h
    · simp only [isQuoted]
      split
      · rfl
      · simp only [List.head?_cons, Bool.and_eq_false_iff]
        right
        push_neg at hq
        simp [hq.1, hq.2]

/-- valueTail_congr: valueTail only looks at its argument through
trimSpace. -/
theorem valueTail_congr (x y : List Char) (h : trimSpace x = trimSpace y) :
    valueTail x = valueTail y := by
  simp only [valueTail, h]

/-- parseValue_plain: a trimmed, hash-free value that does not start with a
quote character parses to itself. -/
theorem parseValue_plain (v : List Char) (h1 : trimLeft v = v)
    (h2 : trimRight v = v) (h3 : '#' ∉ v) (h4 : isPrefixQuoted v = none) :
    parseValue v = v := by
  have ht : trimSpace v = v := by rw [trimSpace, h2, h1]
  have hq : isQuoted v = false := isQuoted_false_of_not_quote_head v h4
  have htr : truncAtHash v = v := truncAtHash_eq_self v h3
  have hvt : valueTail v = v := by
    simp only [valueTail, ht, h4]
    split <;> rfl
  by_cases hnil : v = []
  · subst hnil; rfl
  · simp only [parseValue, ht]
    rw [if_neg hnil, if_pos (by simp [hq]), htr, hvt]

/-- parseValue_dquoted_general: a double-quoted value whose interior has no
quote character is exempt from comment truncation entirely: it parses to the
escape-processed interior, whatever characters (hashes and backslashes
included) the interior holds. -/
theorem parseValue_dquoted_general (s : List Char) (h2 : '"' ∉ s) :
    parseValue ('"' :: (s ++ ['"'])) = unescapeChars (replaceEscapes s) := by
  have hsq : isSpaceCh '"' = false := by rfl
  have hTRs : trimRight (s ++ ['"']) = s ++ ['"'] := by
    rw [trimRight_append, show trimRight ['"'] = ['"'] from rfl,
      if_neg (by simp)]
  have hTR : trimRight ('"' :: (s ++ ['"'])) = '"' :: (s ++ ['"']) := by
    rw [trimRight_cons_of_ne_nil '"' _ (by simp [hTRs]), hTRs]
  have ht : trimSpace ('"' :: (s ++ ['"'])) = '"' :: (s ++ ['"']) := by
    rw [trimSpace, hTR, trimLeft_cons_nonspace _ _ hsq]
  have hlast : ('"' :: (s ++ ['"'])).getLast? = some '"' := by
    rw [show ('"' :: (s ++ ['"'])) = ('"' :: s) ++ ['"'] by simp]
    exact List.getLast?_concat _
  have hIsQ : isQuoted ('"' :: (s ++ ['"'])) = true := by
    simp only [isQuoted, hlast]
    rw [if_neg (by simp [List.length_cons, List.length_append])]
    simp
  have hvt : valueTail ('"' :: (s ++ ['"']))
      = unescapeChars (replaceEscapes s) := by
    simp only [valueTail, ht]
    rw [if_pos (by simp [List.length_cons, List.length_append])]
    simp only [show isPrefixQuoted ('"' :: (s ++ ['"'])) = some '"' from rfl]
    simp only [List.drop_succ_cons, List.drop_zero, List.dropLast_concat,
      if_pos rfl]
    simp
  simp only [parseValue, ht]
  rw [if_neg (by simp), if_neg (by simp [hIsQ]), hvt]

/-- parseValue_dquoted: a double-quoted value whose interior has no quote
and no backslash parses to exactly the interior. -/
theorem parseValue_dquoted (s : List Char) (h1 : '\\' ∉ s) (h2 : '"' ∉ s) :
    parseValue ('"' :: (s ++ ['"'])) = s := by
  rw [parseValue_dquoted_general s h2, replaceEscapes_id s h1,
    unescapeChars_id s h1]

/-- parseValue_squoted: a single-quoted value whose interior has no quote
character is exempt from comment truncation and escape processing alike: it
parses to the interior verbatim, hashes and backslashes included. -/
theorem parseValue_squoted (s : List Char) (h2 : '\'' ∉ s) :
    parseValue ('\'' :: (s ++ ['\''])) = s := by
  have hsq : isSpaceCh '\'' = false := by rfl
  have hTRs : trimRight (s ++ ['\'']) = s ++ ['\''] := by
    rw [trimRight_append, show trimRight ['\''] = ['\''] from rfl,
      if_neg (by simp)]
  have hTR : trimRight ('\'' :: (s ++ ['\''])) = '\'' :: (s ++ ['\'']) := by
    rw [trimRight_cons_of_ne_nil '\'' _ (by simp [hTRs]), hTRs]
  have ht : trimSpace ('\'' :: (s ++ ['\''])) = '\'' :: (s ++ ['\'']) := by
    rw [trimSpace, hTR, trimLeft_cons_nonspace _ _ hsq]
  have hlast : ('\'' :: (s ++ ['\''])).getLast? = some '\'' := by
    rw [show ('\'' :: (s ++ ['\''])) = ('\'' :: s) ++ ['\''] by simp]
    exact List.getLast?_concat _
  have hIsQ : isQuoted ('\'' :: (s ++ ['\''])) = true := by
    simp only [isQuoted, hlast]
    rw [if_neg (by simp [List.length_cons, List.length_append])]
    simp
  have hvt : valueTail ('\'' :: (s ++ ['\''])) = s := by
    simp only [valueTail, ht]
    rw [if_pos (by simp [List.length_cons, List.length_append])]
    simp only [show isPrefixQuoted ('\'' :: (s ++ ['\''])) = some '\'' from rfl]
    simp only [List.drop_succ_cons, List.drop_zero, List.dropLast_concat]
    rw [if_neg (by decide)]
  simp only [parseValue, ht]
  rw [if_neg (by simp), if_neg (by simp [hIsQ]), hvt]

/-- mem_replaceEscapes_hash: the first regex pass never drops a hash
character. -/
theorem mem_replaceEscapes_hash :
    ∀ s : List Char, '#' ∈ s → '#' ∈ replaceEscapes s := by
  intro s
  induction s using replaceEscapes.induct with
  | case1 => intro hm; simp at hm
  | case2 => intro hm; simp at hm
  | case3 r ih =>
    intro hm
    have hm2 : '#' ∈ '\n' :: r := by
      rcases List.mem_cons.mp hm with h | h
      · exact absurd h (by decide)
      · exact h
    rw [show replaceEscapes ('\\' :: '\n' :: r)
        = '\\' :: replaceEscapes ('\n' :: r) from rfl]
    exact List.mem_cons_of_mem _ (ih hm2)
  | case4 c r hne ih =>
    intro hm
    have heq : replaceEscapes ('\\' :: c :: r)
        = (if c = 'n' then ['\n'] else if c = 'r' then ['\r'] else ['\\', c])
          ++ replaceEscapes r := by
      rw [replaceEscapes.eq_def]
      simp [hne]
    rw [heq, List.mem_append]
    rcases List.mem_cons.mp hm with h | h
    · exact absurd h (by decide)
    · rcases List.mem_cons.mp h with h2 | h2
      · subst h2
        exact Or.inl (by decide)
      · exact Or.inr (ih h2)
  | case5 c r hne ih =>
    intro hm
    have heq : replaceEscapes (c :: r) = c :: replaceEscapes r := by
      rw [replaceEscapes.eq_def]
      simp [hne]
    rw [heq]
    rcases List.mem_cons.mp hm with h | h
    · exact h ▸ List.mem_cons_self _ _
    · exact List.mem_cons_of_mem _ (ih h)

/-- mem_unescapeChars_hash: the second regex pass never drops a hash
character. -/
theorem mem_unescapeChars_hash :
    ∀ s : List Char, '#' ∈ s → '#' ∈ unescapeChars s := by
  intro s
  induction s using unescapeChars.induct with
  | case1 => intro hm; simp at hm
  | case2 => intro hm; simp at hm
  | case3 r ih =>
    intro hm
    have hm2 : '#' ∈ '$' :: r := by
      rcases List.mem_cons.mp hm with h | h
      · exact absurd h (by decide)
      · exact h
    rw [show unescapeChars ('\\' :: '$' :: r)
        = '\\' :: unescapeChars ('$' :: r) from rfl]
    exact List.mem_cons_of_mem _ (ih hm2)
  | case4 c r hne ih =>
    intro hm
    have heq : unescapeChars ('\\' :: c :: r) = c :: unescapeChars r := by
      rw [unescapeChars.eq_def]
      simp [hne]
    rw [heq]
    rcases List.mem_cons.mp hm with h | h
    · exact absurd h (by decide)
    · rcases List.mem_cons.mp h with h2 | h2
      · exact h2 ▸ List.mem_cons_self _ _
      · exact List.mem_cons_of_mem _ (ih h2)
  | case5 c r hne ih =>
    intro hm
    have heq : unescapeChars (c :: r) = c :: unescapeChars r := by
      rw [unescapeChars.eq_def]
      simp [hne]
    rw [heq]
    rcases List.mem_cons.mp hm with h | h
    · exact h ▸ List.mem_cons_self _ _
    · exact List.mem_cons_of_mem _ (ih h)

/-- parseValue_hash: an unquoted value is truncated at its first hash
character, escaped or not — the parse result does not depend on anything at
or after that hash. -/
theorem parseValue_hash (a b : List Char) (h1 : '#' ∉ a)
    (h2 : isQuoted (trimSpace (a ++ '#' :: b)) = false) :
    parseValue (a ++ '#' :: b) = parseValue a := by
  have hTRhb : trimRight ('#' :: b) = '#' :: trimRight b :=
    trimRight_cons_nonspace '#' b rfl
  have hTR : trimRight (a ++ '#' :: b) = a ++ '#' :: trimRight b := by
    rw [trimRight_append, hTRhb, if_neg (by simp)]
  have hT : trimSpace (a ++ '#' :: b) = trimLeft a ++ '#' :: trimRight b := by
    rw [trimSpace, hTR, trimLeft_append]
    split
    case isTrue h =>
      rw [h, List.nil_append, trimLeft_cons_nonspace '#' (trimRight b) rfl]
    case isFalse h => rfl
  have hnotinA : '#' ∉ trimLeft a := fun hm => h1 (mem_trimLeft _ _ hm)
  have hTrunc : truncAtHash (trimSpace (a ++ '#' :: b)) = trimLeft a := by
    rw [hT]
    exact truncAtHash_append _ _ hnotinA
  have hne : trimSpace (a ++ '#' :: b) ≠ [] := by
    rw [hT]
    simp
  have hL : parseValue (a ++ '#' :: b) = valueTail (trimLeft a) := by
    simp only [parseValue]
    rw [if_neg hne, if_pos (by simp [h2]), hTrunc]
  by_cases hA : trimLeft a = []
  · have hts : trimSpace a = [] := by
      rw [trimSpace, trim_comm, hA]
      rfl
    rw [hL, hA]
    simp only [parseValue, hts]
    rfl
  · have hts : trimSpace a = trimRight (trimLeft a) := by
      rw [trimSpace, trim_comm]
    have htsne : trimSpace a ≠ [] := by
      rcases List.exists_cons_of_ne_nil hA with ⟨c, t, hct⟩
      have hc : isSpaceCh c = false := head_trimLeft_nonspace a c t hct
      rw [hts, hct, trimRight_cons_nonspace c t hc]
      simp
    have hnotin : '#' ∉ trimSpace a := by
      rw [hts]
      exact fun hm => h1 (mem_trimLeft _ _ (mem_trimRight _ _ hm))
    have hR : parseValue a = valueTail (trimSpace a) := by
      simp only [parseValue]
      rw [if_neg htsne, truncAtHash_eq_self _ hnotin, ite_self]
    rw [hL, hR]
    refine valueTail_congr _ _ ?_
    rw [hts, trimSpace, trimSpace, trimRight_idem]

/-! Theorems about the embedded program. -/

/-- C1: the claim says that with an environment value `e` that is non-empty
or with `allowEmptyEnvVars = true`, `LookUp`/`Get` return the environment
value ahead of the cache.  The code's condition is
`val != "" && !e.allowEmptyEnvVars`, so with `allowEmptyEnvVars = true` and
`ENV[K] = "x"`, `Get K` returns the cache entry `c` instead of `"x"`, and
with `ENV[K] = ""` it also returns `c` instead of the empty environment
value; this theorem evaluates the code at those failing inputs. -/
theorem lookUp_env_ignored_when_allowEmpty :
    (lookUp (fun k => if k = ['K'] then some ['x'] else none)
        ⟨[], true, some [(['K'], GoAny.str ['c'])], 0⟩ ['K']
      = some (GoAny.str ['c'])) ∧
    (getReg (fun k => if k = ['K'] then some ['x'] else none)
        ⟨[], true, some [(['K'], GoAny.str ['c'])], 0⟩ ['K']
      = GoAny.str ['c']) ∧
    (lookUp (fun k => if k = ['K'] then some [] else none)
        ⟨[], true, some [(['K'], GoAny.str ['c'])], 0⟩ ['K']
      = some (GoAny.str ['c'])) ∧
    GoAny.str ['c'] ≠ GoAny.str ['x'] ∧ GoAny.str ['c'] ≠ GoAny.str [] := by
  refine ⟨rfl, rfl, rfl, by decide, by decide⟩

/-- C2: the claim says applying the prefix is idempotent, so that with
prefix `PRO` the keys `PRO_FOO` and `FOO` address the same cache entry.  The
code tests `strings.HasPrefix(e.prefix, key)` with the arguments swapped, so
`PRO_FOO` is prefixed again: `Set` on `PRO_FOO` and `Set` on `FOO` write the
distinct cache keys `PRO_PRO_FOO` and `PRO_FOO`. -/
theorem addPfx_not_idempotent :
    (addPfx (setPfx ['p', 'r', 'o'] { newDotEnv with cachedConfig := some [] })
        ['P', 'R', 'O', '_', 'F', 'O', 'O']
      = "PRO_PRO_FOO".toList) ∧
    (setReg (setPfx ['p', 'r', 'o'] { newDotEnv with cachedConfig := some [] })
        ['P', 'R', 'O', '_', 'F', 'O', 'O'] (GoAny.str ['v'])
      = some ⟨"PRO_".toList, false,
              some [("PRO_PRO_FOO".toList, GoAny.str ['v'])], 0⟩) ∧
    (setReg (setPfx ['p', 'r', 'o'] { newDotEnv with cachedConfig := some [] })
        ['F', 'O', 'O'] (GoAny.str ['v'])
      = some ⟨"PRO_".toList, false,
              some [("PRO_FOO".toList, GoAny.str ['v'])], 0⟩) ∧
    ("PRO_PRO_FOO".toList ≠ "PRO_FOO".toList) := by
  refine ⟨rfl, rfl, rfl, by decide⟩

/-- C3: the claim says the first `Set` on a freshly created registry
lazily initializes the cache and succeeds.  In the code `New()` leaves
`cachedConfig` as the nil map and `Set` assigns into it without any
initialization, which panics; the model returns `none` for the panic, for
every key and value. -/
theorem setReg_fresh_registry_panics :
    ∀ (key : List Char) (value : GoAny), setReg newDotEnv key value = none := by
  intro key value
  rfl

/-- C9: the claim says a `BAD KEY=value` line on line 7 makes every Load of
that file fail with an error naming line 7.  The decoder's `line` field is
never reset, so the first Load of the 7-line file reports line 7 but the
second Load with the same registry reports line 14. -/
theorem keyspace_line_accumulates :
    (loadReg (some "A=1\nB=2\nC=3\nD=4\nE=5\nF=6\nBAD KEY=value".toList)
        newDotEnv).1
      = some (LoadErr.decodeErr ⟨7, ErrKind.keySpaces⟩) ∧
    (loadReg (some "A=1\nB=2\nC=3\nD=4\nE=5\nF=6\nBAD KEY=value".toList)
        (loadReg (some "A=1\nB=2\nC=3\nD=4\nE=5\nF=6\nBAD KEY=value".toList)
          newDotEnv).2).1
      = some (LoadErr.decodeErr ⟨14, ErrKind.keySpaces⟩) ∧
    (14 : Nat) ≠ 7 := by
  refine ⟨rfl, rfl, by decide⟩

/-- C4 counterexample: on the two-line document `A="x` + `B` the quote opens
on line 1, but the unterminated-quoted-value error reports line 2 (the line
at which the input ended), so the claim that the reported line is the
opening line is false. -/
theorem unterminated_line_cex :
    (decodeFrom 0 "A=\"x\nB".toList []).err
      = some ⟨2, ErrKind.unterminated⟩ ∧ (2 : Nat) ≠ 1 := by
  refine ⟨rfl, by decide⟩

/-- C6 counterexample: the well-formed document `K="a#b"` decodes to the
mapping `K ↦ a#b`; serializing that mapping as `K=a#b` and decoding again
truncates the now-unquoted value at `#`, giving `K ↦ a`, so Save/Decode is
not a round trip on every Decode-produced mapping. -/
theorem roundtrip_cex :
    ((decodeFrom 0 "K=\"a#b\"".toList []).err = none ∧
      (decodeFrom 0 "K=\"a#b\"".toList []).cfg = [(['K'], "a#b".toList)]) ∧
    (decodeFrom 0 (saveCache (cfgToCache [(['K'], "a#b".toList)])) []).cfg
      = [(['K'], ['a'])] ∧
    [(['K'], ['a'])] ≠ [(['K'], "a#b".toList)] := by
  refine ⟨⟨rfl, rfl⟩, rfl, by decide⟩

/-- C8 counterexample: the claim says an escaped `\#` in an unquoted value
does not start a comment.  Decoding `K=1\#2` yields the value `1\` — the
code truncates at `strings.Index(value, "#")`, escaped or not — rather than
a value still containing the escaped hash. -/
theorem escaped_hash_cex :
    (decodeFrom 0 "K=1\\#2".toList []).cfg = [(['K'], ['1', '\\'])] ∧
    (['1', '\\'] : List Char) ≠ "1\\#2".toList ∧
    (['1', '\\'] : List Char) ≠ "1#2".toList := by
  refine ⟨rfl, by decide, by decide⟩

/-- C10: for every registry state and every environment, looking up the
empty-string key returns not-found before any prefixing or cache access, so
`LookUp "" = (nil, false)`, `Get ""` is nil and `IsSet ""` is false — even if
the cache or the environment holds an entry under the bare prefix or the
empty key. -/
theorem empty_key_lookup :
    ∀ (env : Env) (e : DotEnvReg),
      lookUp env e [] = none ∧ getReg env e [] = GoAny.vnil ∧
      isSetReg env e [] = false := by
  intro env e
  refine ⟨rfl, rfl, rfl⟩

/-- C5: for every registry state and every file outcome, when `Load` fails —
because the file could not be read or because the decoder rejected the
content — the cache is exactly what it was before the call; and when it
succeeds the cache is replaced wholesale by the full decoded mapping. -/
theorem load_failure_preserves_cache :
    ∀ (fd : Option (List Char)) (e : DotEnvReg),
      ((loadReg fd e).1 ≠ none →
        (loadReg fd e).2.cachedConfig = e.cachedConfig) ∧
      ((loadReg fd e).1 = none →
        ∃ data, fd = some data ∧
          (loadReg fd e).2.cachedConfig
            = some (cfgToCache
                (decodeFrom e.decLine (bytesTrimPre utf8BOM data) []).cfg)) := by
  intro fd e
  cases fd with
  | none => exact ⟨fun _ => rfl, fun h => by simp [loadReg] at h⟩
  | some data =>
    cases hz : (decodeFrom e.decLine (bytesTrimPre utf8BOM data) []).err with
    | some er =>
      refine ⟨fun _ => ?_, fun h => ?_⟩
      · simp [loadReg, hz]
      · simp [loadReg, hz] at h
    | none =>
      refine ⟨fun h => ?_, fun _ => ⟨data, rfl, ?_⟩⟩
      · simp [loadReg, hz] at h
      · simp [loadReg, hz]

/-- C5 witness: a malformed file (`BAD KEY=1`) leaves a pre-existing cache
entry untouched, and a well-formed file (`A=1`) replaces the cache with the
decoded mapping. -/
theorem load_failure_preserves_cache_witness :
    ((loadReg (some "BAD KEY=1".toList)
        ⟨[], false, some [(['Z'], GoAny.str ['9'])], 0⟩).1 ≠ none →
      (loadReg (some "BAD KEY=1".toList)
        ⟨[], false, some [(['Z'], GoAny.str ['9'])], 0⟩).2.cachedConfig
        = some [(['Z'], GoAny.str ['9'])]) ∧
    ((loadReg (some "BAD KEY=1".toList)
        ⟨[], false, some [(['Z'], GoAny.str ['9'])], 0⟩).1 ≠ none) ∧
    ((loadReg (some "A=1".toList) newDotEnv).1 = none →
      ∃ data, (some "A=1".toList : Option (List Char)) = some data ∧
        (loadReg (some "A=1".toList) newDotEnv).2.cachedConfig
          = some (cfgToCache
              (decodeFrom 0 (bytesTrimPre utf8BOM data) []).cfg)) ∧
    ((loadReg (some "A=1".toList) newDotEnv).1 = none) := by
  refine ⟨?_, by decide, ?_, by decide⟩
  · exact (load_failure_preserves_cache (some "BAD KEY=1".toList)
      ⟨[], false, some [(['Z'], GoAny.str ['9'])], 0⟩).1
  · exact (load_failure_preserves_cache (some "A=1".toList) newDotEnv).2

/-- decodeLoop_unterminated_line: whenever the loop ends in the
unterminated-quoted-value error, the reported line number is the entry value
of `d.line` plus the number of lines it consumed — every remaining line is
consumed before the end-of-input check fires. -/
theorem decodeLoop_unterminated_line :
    ∀ (lines : List (List Char)) (d : Nat) (ck cv : List Char)
      (q : Option Char) (cfg exps : Cfg) (n : Nat),
      (decodeLoop d lines ck cv q cfg exps).err
        = some ⟨n, ErrKind.unterminated⟩ →
      n = d + lines.length := by
  intro lines
  induction lines with
  | nil =>
    intro d ck cv q cfg exps n h
    cases q with
    | none => simp [decodeLoop] at h
    | some c =>
      simp [decodeLoop] at h
      simp only [List.length_nil]
      omega
  | cons l rest ih =>
    intro d ck cv q cfg exps n h
    cases q with
    | some c =>
      simp only [decodeLoop] at h
      repeat' split at h
      all_goals
        first
        | (simp at h
           done)
        | (have h2 := ih _ _ _ _ _ _ _ h
           simp only [List.length_cons]
           omega)
    | none =>
      simp only [decodeLoop] at h
      repeat' split at h
      all_goals
        first
        | (simp at h
           done)
        | (have h2 := ih _ _ _ _ _ _ _ h
           simp only [List.length_cons]
           omega)

/-- C4 (amended): for every document, starting line counter and caller map,
when Decode fails with the unterminated-quoted-value error the reported line
number is the counter's entry value plus the total number of physical lines
of the document — the line at which the input ended — not the line on which
the quote opened. -/
theorem unterminated_reports_final_line :
    ∀ (d0 : Nat) (data : List Char) (cfg0 : Cfg) (n : Nat),
      (decodeFrom d0 data cfg0).err = some ⟨n, ErrKind.unterminated⟩ →
      n = d0 + (splitCh '\n' data).length := by
  intro d0 data cfg0 n h
  exact decodeLoop_unterminated_line _ _ _ _ _ _ _ _ h

/-- C4 witness: the two-line document `A="x` + `B` makes Decode fail with
the unterminated error at line 2 = 0 + 2. -/
theorem unterminated_reports_final_line_witness :
    (decodeFrom 0 "A=\"x\nB".toList []).err
      = some ⟨2, ErrKind.unterminated⟩ ∧
    (2 : Nat) = 0 + (splitCh '\n' "A=\"x\nB".toList).length :=
  ⟨rfl, unterminated_reports_final_line 0 "A=\"x\nB".toList [] 2 rfl⟩

/-- C8 (amended): an unquoted value is truncated at its first '#' character
regardless of escaping — everything from the first hash on, including an
escaped `\#`, is dropped (the backslash before it survives) — while a
quoted value is always exempt from comment truncation: a double-quoted
value parses to its escape-processed interior whatever that interior holds,
a single-quoted value parses to its interior verbatim, and a '#' inside a
double-quoted interior is still present in the parsed result. -/
theorem hash_truncation :
    (∀ a b : List Char, '#' ∉ a →
      isQuoted (trimSpace (a ++ '#' :: b)) = false →
      parseValue (a ++ '#' :: b) = parseValue a) ∧
    (∀ s : List Char, '"' ∉ s →
      parseValue ('"' :: (s ++ ['"'])) = unescapeChars (replaceEscapes s)) ∧
    (∀ s : List Char, '\'' ∉ s →
      parseValue ('\'' :: (s ++ ['\''])) = s) ∧
    (∀ s : List Char, '"' ∉ s → '#' ∈ s →
      '#' ∈ parseValue ('"' :: (s ++ ['"']))) :=
  ⟨parseValue_hash, parseValue_dquoted_general, parseValue_squoted,
   fun s h2 hm => by
     rw [parseValue_dquoted_general s h2]
     exact mem_unescapeChars_hash _ (mem_replaceEscapes_hash _ hm)⟩

/-- C8 witness: the escaped hash in the unquoted `1\#2` is truncated (the
result equals the parse of `1\`); the double-quoted `"a\#b"` is exempt and
parses to its escape-processed interior; the single-quoted `'a#b'` is exempt
and parses verbatim; and the hash of the escaped double-quoted interior
survives into the parsed result. -/
theorem hash_truncation_witness :
    (('#' ∉ ("1\\".toList : List Char)) ∧
      isQuoted (trimSpace ("1\\".toList ++ '#' :: ['2'])) = false ∧
      parseValue ("1\\".toList ++ '#' :: ['2']) = parseValue "1\\".toList) ∧
    (('"' ∉ ("a\\#b".toList : List Char)) ∧
      parseValue ('"' :: ("a\\#b".toList ++ ['"']))
        = unescapeChars (replaceEscapes "a\\#b".toList)) ∧
    (('\'' ∉ ("a#b".toList : List Char)) ∧
      parseValue ('\'' :: ("a#b".toList ++ ['\''])) = "a#b".toList) ∧
    (('"' ∉ ("a\\#b".toList : List Char)) ∧
      ('#' ∈ ("a\\#b".toList : List Char)) ∧
      '#' ∈ parseValue ('"' :: ("a\\#b".toList ++ ['"']))) :=
  ⟨⟨by decide, by decide,
      hash_truncation.1 "1\\".toList ['2'] (by decide) (by decide)⟩,
   ⟨by decide, hash_truncation.2.1 "a\\#b".toList (by decide)⟩,
   ⟨by decide, hash_truncation.2.2.1 "a#b".toList (by decide)⟩,
   ⟨by decide, by decide,
      hash_truncation.2.2.2 "a\\#b".toList (by decide) (by decide)⟩⟩

/-- C7: in the quoted-block continuation state (which carries the key, the
partial value and the quote character), a line without the unescaped
terminator is appended raw to the pending value with an embedded newline and
the state persists; a line carrying the unescaped terminator closes the
block, emitting a single entry for the accumulated value and resetting the
state; in particular for the three physical lines `A="x`, `y`, `z"` the
decoded mapping is `A ↦ x\ny\nz`, a single value containing exactly two
embedded newlines (the final line counter is 3). -/
theorem multiline_quoted_value :
    (∀ (d : Nat) (l : List Char) (rest : List (List Char))
        (ck cv : List Char) (q : Char) (cfg exps : Cfg),
      findTerminator l q = none →
      decodeLoop d (l :: rest) ck cv (some q) cfg exps
        = decodeLoop (d + 1) rest ck (cv ++ '\n' :: l) (some q) cfg exps) ∧
    (∀ (d : Nat) (l : List Char) (rest : List (List Char))
        (ck cv : List Char) (q : Char) (cfg exps : Cfg),
      findTerminator l q ≠ none →
      decodeLoop d (l :: rest) ck cv (some q) cfg exps
        = decodeLoop (d + 1) rest [] [] none
            (addEnvD ck (parseValue (cv ++ '\n' :: l)) cfg exps).1
            (addEnvD ck (parseValue (cv ++ '\n' :: l)) cfg exps).2) ∧
    (∀ x y z : List Char,
      '"' ∉ x → '\\' ∉ x → '\n' ∉ x → trimRight x = x →
      '"' ∉ y → '\\' ∉ y → '\n' ∉ y →
      '"' ∉ z → '\\' ∉ z → '\n' ∉ z →
      decodeFrom 0
          (('A' :: '=' :: '"' :: x) ++ '\n' :: (y ++ '\n' :: (z ++ ['"'])))
          []
        = ⟨none, [(['A'], x ++ '\n' :: (y ++ '\n' :: z))], [], 3⟩ ∧
      (x ++ '\n' :: (y ++ '\n' :: z)).count '\n' = 2) := by
  refine ⟨?_, ?_, ?_⟩
  · intro d l rest ck cv q cfg exps h
    simp only [decodeLoop]
    rw [if_pos h]
  · intro d l rest ck cv q cfg exps h
    simp only [decodeLoop]
    rw [if_neg h]
  intro x y z hx1 hx2 hx3 hx4 hy1 hy2 hy3 hz1 hz2 hz3
  constructor
  · have hsplit :
        splitCh '\n'
            (('A' :: '=' :: '"' :: x) ++ '\n' :: (y ++ '\n' :: (z ++ ['"'])))
          = ('A' :: '=' :: '"' :: x) :: y :: [z ++ ['"']] := by
      rw [splitCh_append '\n' _ _ (by simp [hx3]),
        splitCh_append '\n' _ _ hy3,
        splitCh_not_mem '\n' _ (by simp [hz3])]
    have hTRl1 : trimRight ('A' :: '=' :: '"' :: x)
        = 'A' :: '=' :: '"' :: x := by
      by_cases hx : x = []
      · subst hx; rfl
      · have h := trimRight_append ['A', '=', '"'] x
        rw [hx4, if_neg hx] at h
        simpa using h
    have hTl1 : trimSpace ('A' :: '=' :: '"' :: x)
        = 'A' :: '=' :: '"' :: x := by
      rw [trimSpace, hTRl1, trimLeft_cons_nonspace 'A' _ rfl]
    have hcut : cutCh '=' ('A' :: '=' :: '"' :: x)
        = (['A'], '"' :: x, true) := by
      have h := cutCh_append '=' ['A'] ('"' :: x) (by decide)
      simpa using h
    have hkey : trimSpace ['A'] = (['A'] : List Char) := rfl
    have hval : trimSpace ('"' :: x) = '"' :: x := by
      rw [trimSpace, trimRight_cons_nonspace '"' x rfl, hx4,
        trimLeft_cons_nonspace '"' x rfl]
    have hterm1 : findTerminator x '"' = none := findTermAux_none x '"' hx1 false 0
    have hterm2 : findTerminator y '"' = none := findTermAux_none y '"' hy1 false 0
    have hterm3 : findTerminator (z ++ ['"']) '"' = some z.length := by
      have h := findTermAux_concat z '"' hz1 hz2 0
      simpa [findTerminator] using h
    have hparse : parseValue ('"' :: (x ++ '\n' :: (y ++ '\n' :: (z ++ ['"']))))
        = x ++ '\n' :: (y ++ '\n' :: z) := by
      have h := parseValue_dquoted (x ++ '\n' :: (y ++ '\n' :: z))
        (by simp [hx2, hy2, hz2]) (by simp [hx1, hy1, hz1])
      simpa [List.append_assoc] using h
    have haddEnv : ∀ s : List Char,
        addEnvD ['A'] s [] [] = ([(['A'], s)], []) := fun s => rfl
    have hnokey : ¬(¬exportPre <+: (['A'] : List Char) ∧
        ' ' ∈ (['A'] : List Char)) := by decide
    have hpq : isPrefixQuoted ('"' :: x) = some '"' := rfl
    rw [decodeFrom, hsplit]
    simp only [decodeLoop, hTl1, hcut]
    simp [hkey, hval, hpq, hterm1, hterm2, hterm3, hnokey, hparse, haddEnv]
  · have cx : x.count '\n' = 0 := List.count_eq_zero.mpr hx3
    have cy : y.count '\n' = 0 := List.count_eq_zero.mpr hy3
    have cz : z.count '\n' = 0 := List.count_eq_zero.mpr hz3
    simp [List.count_append, List.count_cons, cx, cy, cz]

/-- C7 witness: a continuation line `m` without the terminator is appended
raw with a newline; a terminator line `v"` closes the block and emits the
entry; and the concrete document `A="ab` + `cd` + `ef"` decodes to the
single entry `A ↦ ab\ncd\nef` with two embedded newlines. -/
theorem multiline_quoted_value_witness :
    (findTerminator ['m'] '"' = none ∧
      decodeLoop 5 [['m']] ['A'] ['x'] (some '"') [] []
        = decodeLoop 6 [] ['A'] (['x'] ++ '\n' :: ['m']) (some '"') [] []) ∧
    (findTerminator ['v', '"'] '"' ≠ none ∧
      decodeLoop 5 [['v', '"']] ['A'] ['"', 'w'] (some '"') [] []
        = decodeLoop 6 [] [] [] none
            (addEnvD ['A'] (parseValue (['"', 'w'] ++ '\n' :: ['v', '"'])) [] []).1
            (addEnvD ['A'] (parseValue (['"', 'w'] ++ '\n' :: ['v', '"'])) [] []).2) ∧
    (('"' ∉ ("ab".toList : List Char)) ∧ ('\\' ∉ ("ab".toList : List Char)) ∧
      ('\n' ∉ ("ab".toList : List Char)) ∧ trimRight "ab".toList = "ab".toList) ∧
    decodeFrom 0
        (('A' :: '=' :: '"' :: "ab".toList)
          ++ '\n' :: ("cd".toList ++ '\n' :: ("ef".toList ++ ['"'])))
        []
      = ⟨none, [(['A'], "ab".toList ++ '\n' :: ("cd".toList ++ '\n' :: "ef".toList))], [], 3⟩ ∧
    ("ab".toList ++ '\n' :: ("cd".toList ++ '\n' :: "ef".toList)).count '\n' = 2 :=
  ⟨⟨by decide,
      multiline_quoted_value.1 5 ['m'] [] ['A'] ['x'] '"' [] [] (by decide)⟩,
   ⟨by decide,
      multiline_quoted_value.2.1 5 ['v', '"'] [] ['A'] ['"', 'w'] '"' [] []
        (by decide)⟩,
   ⟨by decide, by decide, by decide, by decide⟩,
    (multiline_quoted_value.2.2 "ab".toList "cd".toList "ef".toList
      (by decide) (by decide) (by decide) (by decide) (by decide) (by decide)
      (by decide) (by decide) (by decide) (by decide)).1,
    (multiline_quoted_value.2.2 "ab".toList "cd".toList "ef".toList
      (by decide) (by decide) (by decide) (by decide) (by decide) (by decide)
      (by decide) (by decide) (by decide) (by decide)).2⟩

/-- upsert_absent: a Go map assignment under a fresh key appends the
entry. -/
theorem upsert_absent {α : Type} (k : List Char) (v : α)
    (l : List (List Char × α)) (h : k ∉ l.map Prod.fst) :
    mapUpsert k v l = l ++ [(k, v)] := by
  induction l with
  | nil => rfl
  | cons p rest ih =>
    have h' : ¬(k = p.1 ∨ k ∈ rest.map Prod.fst) := by
      rw [List.map_cons, List.mem_cons] at h
      exact h
    have hne : p.1 ≠ k := fun he => h' (Or.inl he.symm)
    simp only [mapUpsert, if_neg hne, List.cons_append,
      ih (fun hm => h' (Or.inr hm))]

/-- saveCache_str: Save applied to a string-valued mapping writes the joined
`KEY=value` newline-terminated lines. -/
theorem saveCache_str (m : Cfg) :
    saveCache (cfgToCache m)
      = (m.map (fun p => p.1 ++ '=' :: (p.2 ++ ['\n']))).flatten := by
  simp only [saveCache, cfgToCache, List.map_map]
  refine congrArg List.flatten (List.map_congr_left ?_)
  intro p _
  rfl

/-- step_entry: the decoder consumes one plain `KEY=value` line by upserting
exactly that entry and moving to the next line. -/
theorem step_entry (k v : List Char) (hp : entryPlain (k, v)) :
    ∀ (d : Nat) (rest : List (List Char)) (ck cv : List Char)
      (cfg exps : Cfg),
      decodeLoop d ((k ++ '=' :: v) :: rest) ck cv none cfg exps
        = decodeLoop (d + 1) rest ck cv none (mapUpsert k v cfg) exps := by
  obtain ⟨hk0, hk1, hk2, hk3, hk4, hk5, hk6, hv1, hv2, hv3, hv4, hv5⟩ := hp
  dsimp only at hk0 hk1 hk2 hk3 hk4 hk5 hk6 hv1 hv2 hv3 hv4 hv5
  intro d rest ck cv cfg exps
  have hTRv : trimRight ('=' :: v) = '=' :: v := by
    rw [trimRight_cons_nonspace '=' v rfl, hv2]
  have hline : trimSpace (k ++ '=' :: v) = k ++ '=' :: v := by
    rw [trimSpace, trimRight_append, hTRv, if_neg (by simp), trimLeft_append,
      hk1]
    split
    case isTrue h => rw [trimLeft_cons_nonspace '=' v rfl, h, List.nil_append]
    case isFalse h => rfl
  have hnskip : ¬(k ++ '=' :: v = [] ∨ (k ++ '=' :: v).head? = some '#') := by
    cases k with
    | nil => simp
    | cons c t =>
      simp only [List.cons_append, List.head?_cons]
      refine not_or.mpr ⟨by simp, ?_⟩
      simpa using hk6
  have hcut : cutCh '=' (k ++ '=' :: v) = (k, v, true) := cutCh_append '=' k v hk4
  have hkeyT : trimSpace k = k := by rw [trimSpace, hk2, hk1]
  have hvalT : trimSpace v = v := by rw [trimSpace, hv2, hv1]
  have hnosp : ¬(¬exportPre <+: k ∧ ' ' ∈ k) := fun hand => hk3 hand.2
  have hexp : exportPre.isPrefixOf k = false := by
    rw [Bool.eq_false_iff]
    intro hb
    exact hk3 ((List.isPrefixOf_iff_prefix.mp hb).subset (by decide))
  have hparse : parseValue v = v := parseValue_plain v hv1 hv2 hv3 hv5
  have haddE : addEnvD k v cfg exps = (mapUpsert k v cfg, exps) := by
    simp [addEnvD, hexp, hk0]
  simp only [decodeLoop, hline, hcut]
  simp [hkeyT, hvalT, hv5, hnosp, hnskip, hparse, haddE, hk6]

/-- loop_entries: the decoder consumes a block of plain `KEY=value` lines
with pairwise-distinct keys not yet in the map by appending exactly those
entries, advancing the line counter by the number of lines. -/
theorem loop_entries :
    ∀ (m : Cfg) (rest : List (List Char)) (d : Nat) (ck cv : List Char)
      (cfg exps : Cfg),
      (∀ p ∈ m, entryPlain p) →
      (m.map Prod.fst).Nodup →
      (∀ p ∈ m, p.1 ∉ cfg.map Prod.fst) →
      decodeLoop d ((m.map (fun p => p.1 ++ '=' :: p.2)) ++ rest)
          ck cv none cfg exps
        = decodeLoop (d + m.length) rest ck cv none (cfg ++ m) exps := by
  intro m
  induction m with
  | nil =>
    intro rest d ck cv cfg exps _ _ _
    simp
  | cons p m' ih =>
    intro rest d ck cv cfg exps hplain hnd hdis
    simp only [List.map_cons] at hnd
    have hndh : p.1 ∉ m'.map Prod.fst := (List.nodup_cons.mp hnd).1
    have hndt : (m'.map Prod.fst).Nodup := (List.nodup_cons.mp hnd).2
    have hp : entryPlain (p.1, p.2) := hplain p (List.mem_cons_self p m')
    rw [List.map_cons, List.cons_append,
      step_entry p.1 p.2 hp d _ ck cv cfg exps,
      upsert_absent p.1 p.2 cfg (hdis p (List.mem_cons_self p m')),
      ih rest (d + 1) ck cv (cfg ++ [p]) exps
        (fun q hq => hplain q (List.mem_cons_of_mem p hq)) hndt
        (fun q hq => by
          have h1 := hdis q (List.mem_cons_of_mem p hq)
          have h2 : q.1 ≠ p.1 := by
            intro he
            exact hndh (he ▸ List.mem_map_of_mem Prod.fst hq)
          simp only [List.map_append, List.mem_append, List.map_cons,
            List.map_nil, List.mem_singleton]
          exact fun hor => hor.elim h1 h2),
      show (cfg ++ [p]) ++ m' = cfg ++ p :: m' by simp,
      show d + 1 + m'.length = d + (p :: m').length by
        simp only [List.length_cons]
        omega]

/-- splitCh_flatten: splitting the concatenation of newline-terminated
newline-free lines recovers the lines, plus the empty field after the final
newline. -/
theorem splitCh_flatten :
    ∀ m : Cfg, (∀ p ∈ m, '\n' ∉ p.1 ∧ '\n' ∉ p.2) →
      splitCh '\n' ((m.map (fun p => p.1 ++ '=' :: (p.2 ++ ['\n']))).flatten)
        = (m.map (fun p => p.1 ++ '=' :: p.2)) ++ [[]] := by
  intro m
  induction m with
  | nil => intro _; rfl
  | cons p m' ih =>
    intro h
    have hni := h p (List.mem_cons_self p m')
    have hline : '\n' ∉ p.1 ++ '=' :: p.2 := by
      simp [List.mem_append, hni.1, hni.2]
    rw [List.map_cons, List.flatten_cons,
      show (p.1 ++ '=' :: (p.2 ++ ['\n']))
            ++ (m'.map (fun p => p.1 ++ '=' :: (p.2 ++ ['\n']))).flatten
          = (p.1 ++ '=' :: p.2)
            ++ '\n' :: (m'.map (fun p => p.1 ++ '=' :: (p.2 ++ ['\n']))).flatten
        by simp [List.append_assoc],
      splitCh_append '\n' _ _ hline,
      ih (fun q hq => h q (List.mem_cons_of_mem p hq))]
    simp

/-- C6 (amended): Save-then-Decode is the identity on mappings with
pairwise-distinct plain entries (uppercase trimmed keys without spaces, '='
or newlines and not starting '#'; trimmed values without '#', newlines or a
leading quote): a fresh decoder run over the serialized cache reproduces
exactly the mapping, with no error and no export side effects. -/
theorem roundtrip_plain_entries :
    ∀ m : Cfg, (∀ p ∈ m, entryPlain p) → (m.map Prod.fst).Nodup →
      decodeFrom 0 (saveCache (cfgToCache m)) []
        = ⟨none, m, [], m.length + 1⟩ := by
  intro m hplain hnd
  have hNL : ∀ p ∈ m, '\n' ∉ p.1 ∧ '\n' ∉ p.2 := by
    intro p hp
    obtain ⟨-, -, -, -, -, h6, -, -, -, -, h11, -⟩ := hplain p hp
    exact ⟨h6, h11⟩
  rw [decodeFrom, saveCache_str, splitCh_flatten m hNL,
    loop_entries m [[]] 0 [] [] [] [] hplain hnd (by simp)]
  simp [decodeLoop, show trimSpace [] = [] from rfl]

/-- C6 witness: the mapping `K ↦ 1` satisfies the plainness conditions and
survives the Save/Decode round trip. -/
theorem roundtrip_plain_entries_witness :
    (∀ p ∈ ([(['K'], ['1'])] : Cfg), entryPlain p) ∧
    (([(['K'], ['1'])] : Cfg).map Prod.fst).Nodup ∧
    decodeFrom 0 (saveCache (cfgToCache [(['K'], ['1'])])) []
      = ⟨none, [(['K'], ['1'])], [], 2⟩ :=
  ⟨by decide, by decide,
    roundtrip_plain_entries [(['K'], ['1'])] (by decide) (by decide)⟩

end GoDotenv
